import Mathlib

/-!
Verification of the windowed range fetcher of the multi-dataset repository
(`src/cryptos/update_short-term-30days.py` and `src/stocks/update_stocks_datasets.py`).

The embedding models timestamps as integers counting days: the Python code only
ever adds or subtracts whole-day `timedelta`s to `pd.Timestamp.now()`, so the
difference structure of all dates involved is exactly integer day arithmetic.
Tabular data (pandas DataFrames) is modelled at two levels of abstraction:
as a list of rows, each row a pair of its first-column value and the rest
(for the concatenation/deduplication logic of `download`), and as a structure
of a column-label list plus a row list (for `flatten_columns`).
-/

/-- The minute-granularity interval labels
(`['1m', '2m', '5m', '15m', '30m']` in `IntradayDataDownloader.__init__`). -/
def minuteIntervals : List String := ["1m", "2m", "5m", "15m", "30m"]

/-- The hourly-family interval labels (`['60m', '90m', '1h']`). -/
def hourIntervals : List String := ["60m", "90m", "1h"]

/-- Resolution of `historical_days` in `IntradayDataDownloader.__init__`
(lines 41-54): defaults of 30 / 90 / 30 by interval family when the caller
supplies `None`, and a silent clamp to 30 for minute intervals when the
caller-supplied value exceeds 30. -/
def resolveHistoricalDays (interval : String) (historical_days : Option Int) : Int :=
  match historical_days with
  | none =>
    if interval ∈ minuteIntervals then 30
    else if interval ∈ hourIntervals then 90
    else 30
  | some hd =>
    if interval ∈ minuteIntervals ∧ 30 < hd then 30 else hd

/-- Resolution of `chunk_days` in `IntradayDataDownloader.__init__`
(lines 61-69): default 8 for `'1m'` and 15 otherwise, and a silent clamp
to 8 when the caller supplies more than 8 for `'1m'`. -/
def resolveChunkDays (interval : String) (chunk_days : Option Int) : Int :=
  match chunk_days with
  | none => if interval = "1m" then 8 else 15
  | some cd => if interval = "1m" ∧ 8 < cd then 8 else cd

/-- `IntradayDataDownloader.adjust_dates`: pull `end_date` back to `now`
if it lies in the future. -/
def adjust_dates (end_date now : Int) : Int :=
  if now < end_date then now else end_date

/-- The date-range state computed by `IntradayDataDownloader.__init__`:
`start_date`, `end_date` and `max_chunk` (all in days). -/
structure Downloader where
  start_date : Int
  end_date : Int
  max_chunk : Int
deriving Repr, DecidableEq

/-- `IntradayDataDownloader.__init__` restricted to its date logic:
resolve the policy, set `end_date = now` and
`start_date = now - historical_days + 1` (lines 56-58), then `adjust_dates`. -/
def initDownloader (interval : String) (chunk_days historical_days : Option Int)
    (now : Int) : Downloader :=
  let hd := resolveHistoricalDays interval historical_days
  let cd := resolveChunkDays interval chunk_days
  { start_date := now - hd + 1
    end_date := adjust_dates now now
    max_chunk := cd }

/-- One step per fuel unit of the `while current_start < self.end_date` loop of
`download` (lines 113-134), restricted to the window arithmetic: emit the
window `[current_start, current_end)` with
`current_end = min(current_start + self.max_chunk, self.end_date)` and
continue from `current_end`.  The fuel argument is a totality device only:
`(e - s).toNat` units are enough whenever `0 < c` (proved below), so
`windowWalk` below computes exactly the sequence of windows the loop visits. -/
def windowWalkAux (fuel : Nat) (s e c : Int) : List (Int × Int) :=
  match fuel with
  | 0 => []
  | fuel + 1 =>
    if s < e then
      (s, min (s + c) e) :: windowWalkAux fuel (min (s + c) e) e c
    else []

/-- The full sequence of date windows visited by the `download` loop for
start `s`, end `e` and chunk size `c`. -/
def windowWalk (s e c : Int) : List (Int × Int) :=
  windowWalkAux (e - s).toNat s e c

/-- `coversRange s e ws`: the windows `ws` tile the half-open range `[s, e)`
exactly — the first starts at `s`, each is nonempty, each starts where the
previous one ended, and the last ends at `e`. -/
def coversRange : Int → Int → List (Int × Int) → Prop
  | s, e, [] => s = e
  | s, e, w :: ws => w.1 = s ∧ s < w.2 ∧ coversRange w.2 e ws

/-- A pandas column label as seen by `flatten_columns`: either a plain string
or a tuple, whose first component is a string (e.g. `('Open', 'BTC-USD')`). -/
inductive ColLabel where
  | plain : String → ColLabel
  | tuple : String → List String → ColLabel
deriving Repr, DecidableEq

/-- The per-label flattening step of `flatten_columns` (lines 90-96):
a tuple label is replaced by its first component, anything else is kept. -/
def flattenLabel : ColLabel → String
  | .plain s => s
  | .tuple a _ => a

/-- The rename step of `flatten_columns` (lines 98-99): a column labelled
`"Datetime"` becomes `"Date"`, every other label is untouched. -/
def renameDatetime (s : String) : String :=
  if s = "Datetime" then "Date" else s

/-- The complete label transformation of `flatten_columns`:
flatten tuples first, then apply the `Datetime -> Date` rename. -/
def normalizeLabel (c : ColLabel) : String :=
  renameDatetime (flattenLabel c)

/-- `flatten_columns` on the column-label list of a DataFrame. -/
def flatten_columns (cols : List ColLabel) : List String :=
  (cols.map flattenLabel).map renameDatetime

/-- A tabular fragment: a list of column labels plus a list of rows
(each row an opaque list of cell values). -/
structure DataFrame (γ ρ : Type) where
  cols : List γ
  rows : List ρ
deriving Repr, DecidableEq

/-- `flatten_columns` acting on a whole DataFrame: it reassigns the column
labels (`df.columns = new_columns` plus the rename) and touches nothing else. -/
def flattenFrame {ρ : Type} (df : DataFrame ColLabel ρ) : DataFrame String ρ :=
  { cols := flatten_columns df.cols, rows := df.rows }

/-- Outcome of one `yf.download` call inside the `try` of `download`:
either an exception (`error`) or a table of rows (possibly empty). -/
inductive FetchOutcome (ρ : Type) where
  | error : FetchOutcome ρ
  | table : List ρ → FetchOutcome ρ
deriving Repr, DecidableEq

/-- A fetch outcome contributes rows exactly when it is a nonempty table
(`if not df.empty` on line 125; an exception lands in the `except` arm). -/
def isSuccess {ρ : Type} : FetchOutcome ρ → Bool
  | .table (_ :: _) => true
  | _ => false

/-- The rows carried by a fetch outcome (none for an exception). -/
def fetchedRows {ρ : Type} : FetchOutcome ρ → List ρ
  | .error => []
  | .table rs => rs

/-- The `data_frames` list built by the `download` loop (lines 110-134):
one fragment appended per window whose fetch returns a nonempty table;
windows whose fetch raises or returns an empty table are skipped and the
walk continues with the next window. -/
def collectFrames {ρ : Type} (fetch : Int × Int → FetchOutcome ρ) :
    List (Int × Int) → List (List ρ)
  | [] => []
  | w :: ws =>
    match fetch w with
    | .error => collectFrames fetch ws
    | .table [] => collectFrames fetch ws
    | .table (r :: rs) => (r :: rs) :: collectFrames fetch ws

/-- `result.drop_duplicates(subset=result.columns[0], keep='first')` (line 139):
walk the rows in order, keeping a row exactly when its first-column value has
not been seen on an earlier kept row.  A row is modelled as a pair of its
first-column value and the remaining cells. -/
def dedupByKey {α β : Type} [DecidableEq α] :
    List (α × β) → List α → List (α × β)
  | [], _ => []
  | r :: rs, seen =>
    if r.1 ∈ seen then dedupByKey rs seen
    else r :: dedupByKey rs (r.1 :: seen)

/-- First-column deduplication of a row list, keeping first occurrences. -/
def drop_duplicates {α β : Type} [DecidableEq α] (rows : List (α × β)) :
    List (α × β) :=
  dedupByKey rows []

/-- The aggregation step of `download` (lines 136-139): concatenate the
fragments in chunk order (`pd.concat(data_frames, ignore_index=True)`)
and drop duplicate rows by first-column value, keeping first occurrences. -/
def aggregate {α β : Type} [DecidableEq α] (frames : List (List (α × β))) :
    List (α × β) :=
  drop_duplicates frames.flatten

/-- `IntradayDataDownloader.download` end to end (lines 103-147): walk the
windows, collect the per-window fragments, and either aggregate them (writing
the CSV when `save_csv` is set) or return an empty result with no file
written when no fragment produced rows.  The boolean in the result records
whether the output file was written. -/
def download {α β : Type} [DecidableEq α]
    (fetch : Int × Int → FetchOutcome (α × β)) (d : Downloader)
    (save_csv : Bool) : List (α × β) × Bool :=
  let frames := collectFrames fetch (windowWalk d.start_date d.end_date d.max_chunk)
  match frames with
  | [] => ([], false)
  | f :: fs => (aggregate (f :: fs), save_csv)

example : windowWalk 0 29 8 = [(0, 8), (8, 16), (16, 24), (24, 29)] := by decide

example : (windowWalk 0 29 8).map (fun w => w.2 - w.1) = [8, 8, 8, 5] := by decide

example : drop_duplicates [((1 : Nat), "a"), (2, "b"), (1, "c"), (3, "d")]
    = [(1, "a"), (2, "b"), (3, "d")] := by decide

/-! ### Window-walk lemmas -/

theorem windowWalkAux_covers (fuel : Nat) :
    ∀ s e c : Int, s ≤ e → 0 < c → (e - s).toNat ≤ fuel →
      coversRange s e (windowWalkAux fuel s e c) := by
  induction fuel with
  | zero =>
    intro s e c hse hc hf
    have h : s = e := by omega
    simp [windowWalkAux, coversRange, h]
  | succ n ih =>
    intro s e c hse hc hf
    by_cases h : s < e
    · simp only [windowWalkAux, if_pos h]
      exact ⟨rfl, by show s < min (s + c) e; omega,
        ih (min (s + c) e) e c (by omega) hc (by omega)⟩
    · have h' : s = e := by omega
      simp [windowWalkAux, if_neg h, coversRange, h']

theorem windowWalk_covers (s e c : Int) (hse : s ≤ e) (hc : 0 < c) :
    coversRange s e (windowWalk s e c) :=
  windowWalkAux_covers (e - s).toNat s e c hse hc (le_refl _)

theorem windowWalkAux_mem (fuel : Nat) :
    ∀ s e c : Int, 0 < c → ∀ w ∈ windowWalkAux fuel s e c,
      w.2 = min (w.1 + c) e ∧ s ≤ w.1 := by
  induction fuel with
  | zero => intro s e c hc w hw; simp [windowWalkAux] at hw
  | succ n ih =>
    intro s e c hc w hw
    simp only [windowWalkAux] at hw
    by_cases h : s < e
    · rw [if_pos h] at hw
      rcases List.mem_cons.mp hw with h1 | h2
      · subst h1; exact ⟨rfl, le_refl s⟩
      · obtain ⟨h2a, h2b⟩ := ih (min (s + c) e) e c hc w h2
        exact ⟨h2a, by omega⟩
    · rw [if_neg h] at hw
      simp at hw

theorem windowWalk_mem (s e c : Int) (hc : 0 < c) :
    ∀ w ∈ windowWalk s e c, w.2 = min (w.1 + c) e ∧ s ≤ w.1 :=
  windowWalkAux_mem (e - s).toNat s e c hc

theorem coversRange_le :
    ∀ (ws : List (Int × Int)) (s e : Int), coversRange s e ws → s ≤ e := by
  intro ws
  induction ws with
  | nil => intro s e h; exact le_of_eq h
  | cons w ws ih =>
    intro s e h
    obtain ⟨h1, h2, h3⟩ := h
    have := ih w.2 e h3
    omega

theorem coversRange_bounds :
    ∀ (ws : List (Int × Int)) (s e : Int), coversRange s e ws →
      ∀ w ∈ ws, s ≤ w.1 ∧ w.1 < w.2 ∧ w.2 ≤ e := by
  intro ws
  induction ws with
  | nil => intro s e _ w hw; simp at hw
  | cons v ws ih =>
    intro s e h w hw
    obtain ⟨h1, h2, h3⟩ := h
    have hle := coversRange_le ws v.2 e h3
    rcases List.mem_cons.mp hw with h4 | h4
    · subst h4; omega
    · have := ih v.2 e h3 w h4
      omega

theorem coversRange_union :
    ∀ (ws : List (Int × Int)) (s e : Int), coversRange s e ws →
      ∀ x : Int, (∃ w ∈ ws, w.1 ≤ x ∧ x < w.2) ↔ (s ≤ x ∧ x < e) := by
  intro ws
  induction ws with
  | nil =>
    intro s e h x
    have h' : s = e := h
    constructor
    · intro hx
      obtain ⟨w, hw, _⟩ := hx
      simp at hw
    · intro hx
      exfalso
      omega
  | cons v ws ih =>
    intro s e h x
    obtain ⟨h1, h2, h3⟩ := h
    have hle := coversRange_le ws v.2 e h3
    have hih := ih v.2 e h3 x
    constructor
    · intro hx
      rcases hx with ⟨w, hw, hwx⟩
      rcases List.mem_cons.mp hw with h4 | h4
      · subst h4; omega
      · have := hih.mp ⟨w, h4, hwx⟩
        omega
    · intro hx
      by_cases hv : x < v.2
      · exact ⟨v, List.mem_cons_self v ws, by omega⟩
      · obtain ⟨w, hw, hwx⟩ := hih.mpr (by omega)
        exact ⟨w, List.mem_cons_of_mem v hw, hwx⟩

theorem coversRange_chain :
    ∀ (ws : List (Int × Int)) (s e : Int), coversRange s e ws →
      List.Chain' (fun a b => a.2 = b.1) ws := by
  intro ws
  induction ws with
  | nil => intro s e _; exact List.chain'_nil
  | cons v ws ih =>
    intro s e h
    obtain ⟨h1, h2, h3⟩ := h
    rw [List.chain'_cons']
    refine ⟨?_, ih v.2 e h3⟩
    intro b hb
    cases ws with
    | nil => simp at hb
    | cons u ws' =>
      simp only [List.head?_cons, Option.mem_def, Option.some.injEq] at hb
      subst hb
      exact h3.1.symm

theorem coversRange_pairwise :
    ∀ (ws : List (Int × Int)) (s e : Int), coversRange s e ws →
      ws.Pairwise (fun a b => a.2 ≤ b.1) := by
  intro ws
  induction ws with
  | nil => intro s e _; exact List.Pairwise.nil
  | cons v ws ih =>
    intro s e h
    obtain ⟨h1, h2, h3⟩ := h
    refine List.Pairwise.cons ?_ (ih v.2 e h3)
    intro w hw
    exact (coversRange_bounds ws v.2 e h3 w hw).1

theorem coversRange_dropLast_lt :
    ∀ (ws : List (Int × Int)) (s e : Int), coversRange s e ws →
      ∀ w ∈ ws.dropLast, w.2 < e := by
  intro ws
  induction ws with
  | nil => intro s e _ w hw; simp at hw
  | cons v ws ih =>
    intro s e h w hw
    obtain ⟨h1, h2, h3⟩ := h
    cases ws with
    | nil => simp at hw
    | cons u ws' =>
      rw [List.dropLast_cons₂] at hw
      rcases List.mem_cons.mp hw with h4 | h4
      · subst h4
        obtain ⟨hu1, hu2, hu3⟩ := h3
        have := coversRange_le ws' u.2 e hu3
        omega
      · exact ih v.2 e h3 w h4

theorem coversRange_length :
    ∀ (ws : List (Int × Int)) (s e : Int), coversRange s e ws →
      ws.length ≤ (e - s).toNat := by
  intro ws
  induction ws with
  | nil => intro s e _; simp
  | cons v ws ih =>
    intro s e h
    obtain ⟨h1, h2, h3⟩ := h
    have hle := coversRange_le ws v.2 e h3
    have := ih v.2 e h3
    simp only [List.length_cons]
    omega

theorem coversRange_chain_lt :
    ∀ (ws : List (Int × Int)) (s e : Int), coversRange s e ws →
      List.Chain' (fun a b => a.1 < b.1) ws := by
  intro ws
  induction ws with
  | nil => intro s e _; exact List.chain'_nil
  | cons v ws ih =>
    intro s e h
    obtain ⟨h1, h2, h3⟩ := h
    rw [List.chain'_cons']
    refine ⟨?_, ih v.2 e h3⟩
    intro b hb
    cases ws with
    | nil => simp at hb
    | cons u ws' =>
      simp only [List.head?_cons, Option.mem_def, Option.some.injEq] at hb
      subst hb
      obtain ⟨hu1, hu2, hu3⟩ := h3
      omega

theorem windowWalkAux_shift (fuel : Nat) :
    ∀ s e c t : Int, windowWalkAux fuel (s + t) (e + t) c =
      (windowWalkAux fuel s e c).map (fun w => (w.1 + t, w.2 + t)) := by
  induction fuel with
  | zero => intro s e c t; simp [windowWalkAux]
  | succ n ih =>
    intro s e c t
    by_cases h : s < e
    · have h' : s + t < e + t := by omega
      have hmin : min (s + t + c) (e + t) = min (s + c) e + t := by omega
      simp only [windowWalkAux, if_pos h, if_pos h', hmin, List.map_cons]
      rw [ih]
    · have h' : ¬ s + t < e + t := by omega
      simp [windowWalkAux, if_neg h, if_neg h']

theorem windowWalk_shift (s e c t : Int) :
    windowWalk (s + t) (e + t) c =
      (windowWalk s e c).map (fun w => (w.1 + t, w.2 + t)) := by
  unfold windowWalk
  have h : e + t - (s + t) = e - s := by ring
  rw [h, windowWalkAux_shift]

theorem windowWalkAux_fuel_eq :
    ∀ (n m : Nat) (s e c : Int), 0 < c → (e - s).toNat ≤ n → (e - s).toNat ≤ m →
      windowWalkAux n s e c = windowWalkAux m s e c := by
  intro n
  induction n with
  | zero =>
    intro m s e c hc hn hm
    have h : ¬ s < e := by omega
    cases m with
    | zero => rfl
    | succ m' => simp [windowWalkAux, if_neg h]
  | succ n ih =>
    intro m s e c hc hn hm
    by_cases h : s < e
    · have hpos : 0 < (e - s).toNat := by omega
      cases m with
      | zero => omega
      | succ m' =>
        simp only [windowWalkAux, if_pos h]
        congr 1
        exact ih m' (min (s + c) e) e c hc (by omega) (by omega)
    · cases m with
      | zero => simp [windowWalkAux, if_neg h]
      | succ m' => simp [windowWalkAux, if_neg h]

/-! ### Deduplication lemmas -/

theorem dedupByKey_sublist {α β : Type} [DecidableEq α] :
    ∀ (rows : List (α × β)) (seen : List α),
      (dedupByKey rows seen).Sublist rows := by
  intro rows
  induction rows with
  | nil => intro seen; simp [dedupByKey]
  | cons r rs ih =>
    intro seen
    simp only [dedupByKey]
    by_cases h : r.1 ∈ seen
    · rw [if_pos h]
      exact (ih seen).cons r
    · rw [if_neg h]
      exact (ih (r.1 :: seen)).cons₂ r

theorem dedupByKey_filter {α β : Type} [DecidableEq α] (k : α) :
    ∀ (rows : List (α × β)) (seen : List α),
      (dedupByKey rows seen).filter (fun r => r.1 = k) =
        if k ∈ seen then [] else (rows.filter (fun r => r.1 = k)).take 1 := by
  intro rows
  induction rows with
  | nil => intro seen; simp [dedupByKey]
  | cons r rs ih =>
    intro seen
    simp only [dedupByKey]
    by_cases h : r.1 ∈ seen
    · rw [if_pos h, ih]
      by_cases hk : k ∈ seen
      · rw [if_pos hk, if_pos hk]
      · have hrk : ¬ (r.1 = k) := fun he => hk (he ▸ h)
        rw [if_neg hk, if_neg hk, List.filter_cons_of_neg (by simpa using hrk)]
    · rw [if_neg h]
      by_cases hrk : r.1 = k
      · have hk : k ∉ seen := fun hks => h (hrk ▸ hks)
        rw [List.filter_cons_of_pos (by simpa using hrk), ih,
          if_pos (List.mem_cons.mpr (Or.inl hrk.symm)), if_neg hk,
          List.filter_cons_of_pos (by simpa using hrk)]
        rfl
      · have hk' : k ∉ r.1 :: seen → k ∉ seen := fun hx hks =>
          hx (List.mem_cons_of_mem _ hks)
        rw [List.filter_cons_of_neg (by simpa using hrk), ih]
        by_cases hk : k ∈ seen
        · rw [if_pos (List.mem_cons_of_mem _ hk), if_pos hk]
        · have hkc : k ∉ r.1 :: seen := by
            intro hx
            rcases List.mem_cons.mp hx with he | he
            · exact hrk he.symm
            · exact hk he
          rw [if_neg hkc, if_neg hk, List.filter_cons_of_neg (by simpa using hrk)]

theorem dedupByKey_keys_nodup {α β : Type} [DecidableEq α] :
    ∀ (rows : List (α × β)) (seen : List α),
      ((dedupByKey rows seen).map Prod.fst).Nodup ∧
      ∀ r ∈ dedupByKey rows seen, r.1 ∉ seen := by
  intro rows
  induction rows with
  | nil => intro seen; simp [dedupByKey]
  | cons r rs ih =>
    intro seen
    simp only [dedupByKey]
    by_cases h : r.1 ∈ seen
    · rw [if_pos h]; exact ih seen
    · rw [if_neg h]
      obtain ⟨ih1, ih2⟩ := ih (r.1 :: seen)
      refine ⟨?_, ?_⟩
      · simp only [List.map_cons, List.nodup_cons]
        refine ⟨?_, ih1⟩
        intro hmem
        obtain ⟨w, hw, hwk⟩ := List.mem_map.mp hmem
        have := ih2 w hw
        simp [hwk] at this
      · intro w hw
        rcases List.mem_cons.mp hw with h1 | h1
        · subst h1; exact h
        · have := ih2 w h1
          intro hws
          exact this (List.mem_cons_of_mem _ hws)

theorem dedupByKey_of_nodup {α β : Type} [DecidableEq α] :
    ∀ (rows : List (α × β)) (seen : List α),
      (rows.map Prod.fst).Nodup → (∀ r ∈ rows, r.1 ∉ seen) →
      dedupByKey rows seen = rows := by
  intro rows
  induction rows with
  | nil => intro seen _ _; rfl
  | cons r rs ih =>
    intro seen hnd hsn
    simp only [List.map_cons, List.nodup_cons] at hnd
    simp only [dedupByKey, if_neg (hsn r (List.mem_cons_self r rs))]
    congr 1
    refine ih (r.1 :: seen) hnd.2 ?_
    intro w hw
    simp only [List.mem_cons]
    rintro (h1 | h1)
    · exact hnd.1 (h1 ▸ List.mem_map_of_mem Prod.fst hw)
    · exact hsn w (List.mem_cons_of_mem r hw) h1

/-! ### Collect-frames lemmas -/

theorem collectFrames_eq {ρ : Type} (fetch : Int × Int → FetchOutcome ρ) :
    ∀ ws : List (Int × Int),
      collectFrames fetch ws =
        (ws.filter (fun w => isSuccess (fetch w))).map (fun w => fetchedRows (fetch w)) := by
  intro ws
  induction ws with
  | nil => rfl
  | cons w ws ih =>
    simp only [collectFrames]
    rcases hfw : fetch w with _ | rs
    · simp [List.filter_cons, isSuccess, hfw, ih]
    · cases rs with
      | nil => simp [List.filter_cons, isSuccess, hfw, ih]
      | cons r rs' =>
        simp [List.filter_cons, isSuccess, hfw, ih, fetchedRows]

/-! ### Claim theorems -/

/-- C2: for every caller-supplied historicalDays and chunkDays, a
minute-granularity interval resolves historicalDays to at most 30 — values
above 30 are clamped to exactly 30 and in-range values are kept — and the
interval "1m" resolves chunkDays to at most 8, values above 8 clamped to
exactly 8 and in-range values kept.  Resolution is a total function on the
caller input: out-of-range values are clamped, never rejected. -/
theorem C2_policy_clamp (interval : String) (hd cd : Int) :
    (interval ∈ minuteIntervals → resolveHistoricalDays interval (some hd) ≤ 30) ∧
    (interval ∈ minuteIntervals → 30 < hd →
      resolveHistoricalDays interval (some hd) = 30) ∧
    (interval ∈ minuteIntervals → hd ≤ 30 →
      resolveHistoricalDays interval (some hd) = hd) ∧
    (interval = "1m" → resolveChunkDays interval (some cd) ≤ 8) ∧
    (interval = "1m" → 8 < cd → resolveChunkDays interval (some cd) = 8) ∧
    (interval = "1m" → cd ≤ 8 → resolveChunkDays interval (some cd) = cd) := by
  refine ⟨?_, ?_, ?_, ?_, ?_, ?_⟩
  · intro hmem
    simp only [resolveHistoricalDays]
    split_ifs with h
    · omega
    · simp [hmem] at h
      omega
  · intro hmem h30
    simp only [resolveHistoricalDays]
    rw [if_pos ⟨hmem, h30⟩]
  · intro hmem h30
    simp only [resolveHistoricalDays]
    rw [if_neg (fun hc => by omega)]
  · intro h1m
    simp only [resolveChunkDays]
    split_ifs with h
    · omega
    · simp [h1m] at h
      omega
  · intro h1m h8
    simp only [resolveChunkDays]
    rw [if_pos ⟨h1m, h8⟩]
  · intro h1m h8
    simp only [resolveChunkDays]
    rw [if_neg (fun hc => by omega)]

/-- C2 witness: interval "5m" with caller-supplied 90 historical days resolves
to the clamped maximum 30, and interval "1m" with caller-supplied 20 chunk days
resolves to the clamped maximum 8. -/
theorem C2_policy_clamp_witness :
    resolveHistoricalDays "5m" (some 90) = 30 ∧
    resolveChunkDays "1m" (some 20) = 8 :=
  ⟨(C2_policy_clamp "5m" 90 20).2.1 (by decide) (by decide),
   (C2_policy_clamp "1m" 90 20).2.2.2.2.1 rfl (by decide)⟩

/-- C3: for every start ≤ end and chunkDays ≥ 1, the window walk is the
sequence generated by current = min(previous + chunkDays, end): consecutive
windows are contiguous, all windows are pairwise non-overlapping, every span is
positive and at most chunkDays with every non-final window spanning exactly
chunkDays, and the union of the windows is exactly the half-open range
[start, end). -/
theorem C3_window_walk_invariants (s e c : Int) (hse : s ≤ e) (hc : 0 < c) :
    (∀ w ∈ windowWalk s e c, w.2 = min (w.1 + c) e) ∧
    List.Chain' (fun a b => a.2 = b.1) (windowWalk s e c) ∧
    (windowWalk s e c).Pairwise
      (fun a b => ∀ x : Int, ¬ (a.1 ≤ x ∧ x < a.2 ∧ b.1 ≤ x ∧ x < b.2)) ∧
    (∀ w ∈ windowWalk s e c, 0 < w.2 - w.1 ∧ w.2 - w.1 ≤ c) ∧
    (∀ w ∈ (windowWalk s e c).dropLast, w.2 - w.1 = c) ∧
    (∀ x : Int,
      (∃ w ∈ windowWalk s e c, w.1 ≤ x ∧ x < w.2) ↔ (s ≤ x ∧ x < e)) := by
  have hcov := windowWalk_covers s e c hse hc
  have hmem := windowWalk_mem s e c hc
  refine ⟨?_, ?_, ?_, ?_, ?_, ?_⟩
  · intro w hw
    exact (hmem w hw).1
  · exact coversRange_chain _ s e hcov
  · refine (coversRange_pairwise _ s e hcov).imp (fun hab x hx => ?_)
    omega
  · intro w hw
    have h1 := coversRange_bounds _ s e hcov w hw
    have h2 := (hmem w hw).1
    omega
  · intro w hw
    have hsub : w ∈ windowWalk s e c := (List.dropLast_sublist _).subset hw
    have h1 := (hmem w hsub).1
    have h2 := coversRange_dropLast_lt _ s e hcov w hw
    have h3 := coversRange_bounds _ s e hcov w hsub
    omega
  · exact coversRange_union _ s e hcov

/-- C3 witness: the invariants instantiated at start 0, end 29, chunk 8. -/
theorem C3_window_walk_invariants_witness :
    ((0 : Int) ≤ 29 ∧ (0 : Int) < 8) ∧
    ((∀ w ∈ windowWalk 0 29 8, w.2 = min (w.1 + 8) 29) ∧
     List.Chain' (fun a b => a.2 = b.1) (windowWalk 0 29 8) ∧
     (windowWalk 0 29 8).Pairwise
       (fun a b => ∀ x : Int, ¬ (a.1 ≤ x ∧ x < a.2 ∧ b.1 ≤ x ∧ x < b.2)) ∧
     (∀ w ∈ windowWalk 0 29 8, 0 < w.2 - w.1 ∧ w.2 - w.1 ≤ 8) ∧
     (∀ w ∈ (windowWalk 0 29 8).dropLast, w.2 - w.1 = 8) ∧
     (∀ x : Int,
       (∃ w ∈ windowWalk 0 29 8, w.1 ≤ x ∧ x < w.2) ↔ (0 ≤ x ∧ x < 29))) :=
  ⟨⟨by decide, by decide⟩, C3_window_walk_invariants 0 29 8 (by decide) (by decide)⟩

/-- C8: for every request with start ≤ end and chunkDays ≥ 1 the window walk
terminates: any fuel of at least end − start loop steps reproduces the same
finite window sequence, the loop performs at most end − start iterations, and
the cursor strictly advances at every step. -/
theorem C8_walk_terminates (s e c : Int) (hse : s ≤ e) (hc : 0 < c) :
    (∀ fuel : Nat, (e - s).toNat ≤ fuel →
      windowWalkAux fuel s e c = windowWalk s e c) ∧
    (windowWalk s e c).length ≤ (e - s).toNat ∧
    List.Chain' (fun a b => a.1 < b.1) (windowWalk s e c) := by
  have hcov := windowWalk_covers s e c hse hc
  refine ⟨?_, coversRange_length _ s e hcov, coversRange_chain_lt _ s e hcov⟩
  intro fuel hf
  exact windowWalkAux_fuel_eq fuel (e - s).toNat s e c hc hf (le_refl _)

/-- C8 witness: termination facts instantiated at start 0, end 29, chunk 8. -/
theorem C8_walk_terminates_witness :
    ((0 : Int) ≤ 29 ∧ (0 : Int) < 8) ∧
    ((∀ fuel : Nat, ((29 : Int) - 0).toNat ≤ fuel →
       windowWalkAux fuel 0 29 8 = windowWalk 0 29 8) ∧
     (windowWalk 0 29 8).length ≤ ((29 : Int) - 0).toNat ∧
     List.Chain' (fun a b => a.1 < b.1) (windowWalk 0 29 8)) :=
  ⟨⟨by decide, by decide⟩, C8_walk_terminates 0 29 8 (by decide) (by decide)⟩

/-- C1 counterexample: at evaluation time now = 29 the request resolved with
historicalDays = 30 and chunkDays = 8 (interval "1m") has start_date = 0,
end_date = 29 and max_chunk = 8, and the window walk's spans are [8, 8, 8, 5] —
not [8, 8, 8, 6] as claimed, so the windows cover 29 days rather than 30. -/
theorem C1_counterexample :
    initDownloader "1m" (some 8) (some 30) 29 = ⟨0, 29, 8⟩ ∧
    ¬ ((windowWalk 0 29 8).map (fun w => w.2 - w.1) = [8, 8, 8, 6]) := by
  constructor
  · decide
  · decide

/-- C1 (amended): for every evaluation time now, the request resolved with
historicalDays = 30 and chunkDays = 8 has start = now − 30 + 1 = now − 29 and
end = now, and the window walk over the 29-day half-open range [now − 29, now)
produces exactly 4 windows whose spans in days are [8, 8, 8, 5]; the windows
are contiguous and pairwise non-overlapping and their union is exactly the
29-day range — no gaps and no overlaps. -/
theorem C1_thirty_day_request_walk (now : Int) :
    initDownloader "1m" (some 8) (some 30) now = ⟨now - 29, now, 8⟩ ∧
    windowWalk (now - 29) now 8 =
      [(now - 29, now - 21), (now - 21, now - 13),
       (now - 13, now - 5), (now - 5, now)] ∧
    (windowWalk (now - 29) now 8).map (fun w => w.2 - w.1) = [8, 8, 8, 5] ∧
    List.Chain' (fun a b => a.2 = b.1) (windowWalk (now - 29) now 8) ∧
    (windowWalk (now - 29) now 8).Pairwise
      (fun a b => ∀ x : Int, ¬ (a.1 ≤ x ∧ x < a.2 ∧ b.1 ≤ x ∧ x < b.2)) ∧
    (∀ x : Int, (∃ w ∈ windowWalk (now - 29) now 8, w.1 ≤ x ∧ x < w.2) ↔
      (now - 29 ≤ x ∧ x < now)) := by
  have hres : resolveHistoricalDays "1m" (some 30) = 30 := by decide
  have hcd : resolveChunkDays "1m" (some 8) = 8 := by decide
  have hcov := windowWalk_covers (now - 29) now 8 (by omega) (by omega)
  have hbase : windowWalk 0 29 8 = [(0, 8), (8, 16), (16, 24), (24, 29)] := by
    decide
  have hshift := windowWalk_shift 0 29 8 (now - 29)
  rw [hbase] at hshift
  have h1 : (0 : Int) + (now - 29) = now - 29 := by ring
  have h2 : (29 : Int) + (now - 29) = now := by ring
  rw [h1, h2] at hshift
  have key : windowWalk (now - 29) now 8 =
      [(now - 29, now - 21), (now - 21, now - 13),
       (now - 13, now - 5), (now - 5, now)] := by
    rw [hshift]
    simp only [List.map_cons, List.map_nil, List.cons.injEq, Prod.mk.injEq,
      and_true]
    omega
  refine ⟨?_, key, ?_, coversRange_chain _ _ _ hcov, ?_, coversRange_union _ _ _ hcov⟩
  · simp only [initDownloader, hres, hcd, adjust_dates, Downloader.mk.injEq]
    constructor
    · omega
    · simp
  · rw [key]
    simp only [List.map_cons, List.map_nil, List.cons.injEq, and_true]
    omega
  · refine (coversRange_pairwise _ _ _ hcov).imp (fun hab x hx => ?_)
    omega

/-- C4: the aggregator concatenates the fragments in chunk order and removes
every row whose first-column value equals that of an earlier row, keeping the
first occurrence: the result is an order-preserving selection (sublist) of the
concatenation, and for every key the surviving rows with that key are exactly
the first row of the concatenation carrying that key; specialised to two
fragments, the result's row for any key is the first matching row of
f1 ++ f2, and for a key present in the earlier fragment it is that fragment's
first matching row, so overlapping keys keep the earlier fragment's row and
non-overlapping rows of both fragments survive in relative order. -/
theorem C4_aggregate_keeps_first {α β : Type} [DecidableEq α]
    (frames : List (List (α × β))) :
    (aggregate frames).Sublist frames.flatten ∧
    (∀ k : α, (aggregate frames).filter (fun r => r.1 = k) =
      (frames.flatten.filter (fun r => r.1 = k)).take 1) ∧
    (∀ f1 f2 : List (α × β), ∀ k : α,
      (aggregate [f1, f2]).filter (fun r => r.1 = k) =
        ((f1 ++ f2).filter (fun r => r.1 = k)).take 1) ∧
    (∀ f1 f2 : List (α × β), ∀ k : α,
      f1.filter (fun r => r.1 = k) ≠ [] →
      (aggregate [f1, f2]).filter (fun r => r.1 = k) =
        (f1.filter (fun r => r.1 = k)).take 1) := by
  have hpair : ∀ (f1 f2 : List (α × β)) (k : α),
      (aggregate [f1, f2]).filter (fun r => r.1 = k) =
        ((f1 ++ f2).filter (fun r => r.1 = k)).take 1 := by
    intro f1 f2 k
    have hfl : ([f1, f2] : List (List (α × β))).flatten = f1 ++ f2 := by
      simp [List.flatten]
    rw [show aggregate [f1, f2] = dedupByKey ([f1, f2]).flatten [] from rfl,
      dedupByKey_filter, hfl]
    simp
  refine ⟨dedupByKey_sublist _ _, ?_, hpair, ?_⟩
  · intro k
    rw [show aggregate frames = dedupByKey frames.flatten [] from rfl,
      dedupByKey_filter]
    simp
  · intro f1 f2 k hne
    rw [hpair f1 f2 k, List.filter_append, List.take_append_eq_append_take]
    have hlen : 1 - (f1.filter (fun r => r.1 = k)).length = 0 := by
      have : (f1.filter (fun r => r.1 = k)).length ≠ 0 := by
        simpa [List.length_eq_zero] using hne
      omega
    rw [hlen, List.take_zero, List.append_nil]

/-- C4 witness: two fragments with the overlapping first-column key 1 — the
earlier fragment's row (1, 10) survives and the later duplicate (1, 99) is
dropped. -/
theorem C4_aggregate_keeps_first_witness :
    ([((1 : Nat), (10 : Nat)), (2, 20)].filter (fun r => r.1 = 1) ≠ []) ∧
    (aggregate [[((1 : Nat), (10 : Nat)), (2, 20)], [(1, 99), (3, 30)]]).filter
        (fun r => r.1 = 1) =
      ([((1 : Nat), (10 : Nat)), (2, 20)].filter (fun r => r.1 = 1)).take 1 :=
  ⟨by decide,
   (C4_aggregate_keeps_first ([] : List (List (Nat × Nat)))).2.2.2
     [(1, 10), (2, 20)] [(1, 99), (3, 30)] 1 (by decide)⟩

/-- C9: first-occurrence deduplication by first-column key is idempotent —
running the aggregator's duplicate removal twice over a concatenated input
yields the same rows as running it once. -/
theorem C9_dedup_idempotent {α β : Type} [DecidableEq α] (rows : List (α × β)) :
    drop_duplicates (drop_duplicates rows) = drop_duplicates rows := by
  apply dedupByKey_of_nodup
  · exact (dedupByKey_keys_nodup rows []).1
  · intro r _
    exact List.not_mem_nil _

/-- C9 witness: idempotence evaluated on a concrete duplicated row list. -/
theorem C9_dedup_idempotent_witness :
    drop_duplicates (drop_duplicates
        [((1 : Nat), (10 : Nat)), (2, 20), (1, 99), (3, 30)]) =
      drop_duplicates [((1 : Nat), (10 : Nat)), (2, 20), (1, 99), (3, 30)] :=
  C9_dedup_idempotent [(1, 10), (2, 20), (1, 99), (3, 30)]

/-- C5: a chunk fetch that raises or returns an empty table contributes zero
rows and does not prevent any later window from being fetched: the collected
fragments of a request are exactly the fetched rows of the successful windows,
in walk order (so failures are converted to the absence of a fragment rather
than a propagated exception, the modelled loop being a total function), and
every window with a successful fetch contributes its rows to the result no
matter what the other windows did. -/
theorem C5_chunk_failure_isolated {ρ : Type}
    (fetch : Int × Int → FetchOutcome ρ) (s e c : Int) :
    collectFrames fetch (windowWalk s e c) =
      ((windowWalk s e c).filter (fun w => isSuccess (fetch w))).map
        (fun w => fetchedRows (fetch w)) ∧
    (∀ w ∈ windowWalk s e c, isSuccess (fetch w) = true →
      fetchedRows (fetch w) ∈ collectFrames fetch (windowWalk s e c)) := by
  have heq := collectFrames_eq fetch (windowWalk s e c)
  refine ⟨heq, ?_⟩
  intro w hw hsw
  rw [heq]
  exact List.mem_map_of_mem _ (List.mem_filter.mpr ⟨hw, hsw⟩)

/-- C5 witness: a provider failing on the first window of the walk over
[0, 29) with chunk 8 still lets the second window contribute its rows. -/
theorem C5_chunk_failure_isolated_witness :
    (((8 : Int), (16 : Int)) ∈ windowWalk 0 29 8 ∧
      isSuccess ((fun w : Int × Int =>
        if w.1 = 0 then FetchOutcome.error
        else FetchOutcome.table [((1 : Nat), (1 : Nat))]) (8, 16)) = true) ∧
    fetchedRows ((fun w : Int × Int =>
        if w.1 = 0 then FetchOutcome.error
        else FetchOutcome.table [((1 : Nat), (1 : Nat))]) (8, 16)) ∈
      collectFrames (fun w : Int × Int =>
        if w.1 = 0 then FetchOutcome.error
        else FetchOutcome.table [((1 : Nat), (1 : Nat))]) (windowWalk 0 29 8) :=
  ⟨⟨by decide, by decide⟩,
   (C5_chunk_failure_isolated (fun w : Int × Int =>
      if w.1 = 0 then FetchOutcome.error
      else FetchOutcome.table [((1 : Nat), (1 : Nat))]) 0 29 8).2
     (8, 16) (by decide) (by decide)⟩

/-- C6: flatten_columns maps each column label independently: a tuple label is
reduced to its first component, a label reading "Datetime" after that reduction
is renamed to "Date", and every label that is neither a tuple nor "Datetime" —
in particular a column already named "Date" — is left unchanged; no other
renaming occurs. -/
theorem C6_label_normalization (cols : List ColLabel) :
    flatten_columns cols = cols.map normalizeLabel ∧
    normalizeLabel (ColLabel.plain "Datetime") = "Date" ∧
    normalizeLabel (ColLabel.plain "Date") = "Date" ∧
    (∀ s : String, s ≠ "Datetime" → normalizeLabel (ColLabel.plain s) = s) ∧
    (∀ (a : String) (r : List String), a ≠ "Datetime" →
      normalizeLabel (ColLabel.tuple a r) = a) ∧
    (∀ r : List String, normalizeLabel (ColLabel.tuple "Datetime" r) = "Date") := by
  refine ⟨?_, by decide, by decide, ?_, ?_, ?_⟩
  · rw [flatten_columns, List.map_map]
    rfl
  · intro s hs
    simp [normalizeLabel, flattenLabel, renameDatetime, hs]
  · intro a r ha
    simp [normalizeLabel, flattenLabel, renameDatetime, ha]
  · intro r
    simp [normalizeLabel, flattenLabel, renameDatetime]

/-- C6 witness: a tuple label ('Open', 'BTC-USD') flattens to its first
component "Open", which is not renamed. -/
theorem C6_label_normalization_witness :
    normalizeLabel (ColLabel.tuple "Open" ["BTC-USD"]) = "Open" :=
  (C6_label_normalization []).2.2.2.2.1 "Open" ["BTC-USD"] (by decide)

/-- C7: when every chunk fetch of the request yields no rows — an exception or
an empty table — download returns the explicitly empty result set instead of
raising, and the output file is not written (the boolean component records
persistence). -/
theorem C7_all_empty_skips_persistence {α β : Type} [DecidableEq α]
    (fetch : Int × Int → FetchOutcome (α × β)) (d : Downloader)
    (save_csv : Bool)
    (h : ∀ w ∈ windowWalk d.start_date d.end_date d.max_chunk,
      isSuccess (fetch w) = false) :
    download fetch d save_csv = ([], false) := by
  have hnil :
      collectFrames fetch (windowWalk d.start_date d.end_date d.max_chunk) = [] := by
    rw [collectFrames_eq]
    have hfil : (windowWalk d.start_date d.end_date d.max_chunk).filter
        (fun w => isSuccess (fetch w)) = [] := by
      apply List.filter_eq_nil_iff.mpr
      intro w hw
      simp [h w hw]
    rw [hfil, List.map_nil]
  simp [download, hnil]

/-- C7 witness: a provider that always raises over the walk of [0, 29) with
chunk 8 produces the empty result and no CSV write, even with save_csv set. -/
theorem C7_all_empty_skips_persistence_witness :
    (∀ w ∈ windowWalk (Downloader.mk 0 29 8).start_date
        (Downloader.mk 0 29 8).end_date (Downloader.mk 0 29 8).max_chunk,
      isSuccess ((fun _ : Int × Int =>
        (FetchOutcome.error : FetchOutcome (Nat × Nat))) w) = false) ∧
    download (fun _ : Int × Int =>
        (FetchOutcome.error : FetchOutcome (Nat × Nat)))
      (Downloader.mk 0 29 8) true = ([], false) :=
  ⟨by decide,
   C7_all_empty_skips_persistence (fun _ : Int × Int =>
      (FetchOutcome.error : FetchOutcome (Nat × Nat)))
     (Downloader.mk 0 29 8) true (by decide)⟩

/-- C10: flatten_columns changes only the column labels of a fragment: the row
list — row count, row order and every cell value — is untouched, and the
number of column labels is preserved. -/
theorem C10_flatten_touches_only_labels {ρ : Type} (df : DataFrame ColLabel ρ) :
    (flattenFrame df).rows = df.rows ∧
    (flattenFrame df).cols.length = df.cols.length := by
  refine ⟨rfl, ?_⟩
  simp [flattenFrame, flatten_columns]
